import Mathlib

/-!
Verification of the monorepo-test repository's specification.

The repository's only component with temporal behaviour is the debounce
utility exported from `packages/common/src/utils`.  Its implementation file
is not present in the repository snapshot (only its re-export in the package
index, its callers, and the jest tests quoted in TESTING_GUIDE.md are), so
the controller below is modelled from the specification's own contract,
state machine and design notes (spec sections 3, 4.1, 5 and 9): a
trailing-edge debounce built on an injected scheduler capability offering
schedule(delay, payload) -> cancellable handle and cancel(handle), driven by
a virtual clock.  Invocations of the wrapped callback `f` are represented as
the emitted trace of (fire-time, argument) pairs.

The UserCard and Button components are embedded directly from
`packages/common/src/components/UserCard.tsx` (the concatenated source file
holding both components).
-/

/-- Modelled from the spec: the deferred-execution primitive of section 9,
a scheduler holding the set of active timers as (handle, deadline, payload)
triples together with the next fresh handle.  `schedule` returns a
cancellable handle; `cancel` removes the timer with that handle. -/
structure Sched (α : Type) where
  timers : List (Nat × Nat × α)
  next : Nat
deriving Repr, DecidableEq

/-- Modelled from the spec: schedule(deadline, payload) returning the new
scheduler state and the cancellable handle. -/
def Sched.schedule {α : Type} (s : Sched α) (deadline : Nat) (a : α) :
    Sched α × Nat :=
  (⟨(s.next, deadline, a) :: s.timers, s.next + 1⟩, s.next)

/-- Modelled from the spec: cancel(handle); cancelling an already-fired or
unknown handle is a no-op, as with clearTimeout. -/
def Sched.cancel {α : Type} (s : Sched α) (h : Nat) : Sched α :=
  ⟨s.timers.filter (fun tr => tr.1 != h), s.next⟩

/-- Modelled from the spec: the Debounce Controller of sections 3 and 4.1.
It owns the immutable delay `wait`, the scheduler it schedules against and
the closure-held handle of the most recently scheduled timer (the
clearTimeout target), exactly one Pending Invocation slot. -/
structure Debounced (α : Type) where
  wait : Nat
  sched : Sched α
  timeout : Option Nat
deriving Repr, DecidableEq

/-- Modelled from the spec: `debounce(f, wait)` constructs a fresh
controller in the Idle state; the callback is represented by the emitted
trace rather than stored. -/
def debounce (α : Type) (wait : Nat) : Debounced α :=
  ⟨wait, ⟨[], 0⟩, none⟩

/-- Modelled from the spec: a call of the produced function `g` at virtual
time `now` with argument `args` — cancel the outstanding handle (if any)
and schedule a fresh countdown of `wait` with the new arguments. -/
def Debounced.call {α : Type} (g : Debounced α) (now : Nat) (args : α) :
    Debounced α :=
  let s1 : Sched α :=
    match g.timeout with
    | none => g.sched
    | some h => g.sched.cancel h
  let p := s1.schedule (now + g.wait) args
  ⟨g.wait, p.1, some p.2⟩

/-- Modelled from the spec: fire every timer whose deadline satisfies `due`,
removing it from the scheduler and emitting its (deadline, payload) pair. -/
def Debounced.fire {α : Type} (g : Debounced α) (due : Nat × Nat × α → Bool) :
    Debounced α × List (Nat × α) :=
  (⟨g.wait, ⟨g.sched.timers.filter (fun tr => ! due tr), g.sched.next⟩,
      g.timeout⟩,
   (g.sched.timers.filter due).map (fun tr => (tr.2.1, tr.2.2)))

/-- Modelled from the spec: advance the virtual clock up to the start of the
synchronous frame at time `t`: every timer whose deadline lies strictly
before `t` has fired; a timer scheduled for `t` itself by code running in
the frame at `t` has not yet run (deferred execution never pre-empts the
current synchronous frame). -/
def Debounced.advance {α : Type} (g : Debounced α) (t : Nat) :
    Debounced α × List (Nat × α) :=
  g.fire (fun tr => decide (tr.2.1 < t))

/-- Modelled from the spec: let the clock reach and pass time `t` with no
further calls, so every timer with deadline at most `t` fires (the
advanceTimersByTime semantics of the quoted jest tests). -/
def Debounced.elapse {α : Type} (g : Debounced α) (t : Nat) :
    Debounced α × List (Nat × α) :=
  g.fire (fun tr => decide (tr.2.1 ≤ t))

/-- Modelled from the spec: process a list of calls of `g`, each a
(time, argument) pair in chronological order; before each call the clock
advances to that call's frame, firing any due timer.  Returns the final
controller state and the trace of callback executions. -/
def runCalls {α : Type} : Debounced α → List (Nat × α) →
    Debounced α × List (Nat × α)
  | g, [] => (g, [])
  | g, (t, a) :: rest =>
    let s := g.advance t
    let r := runCalls (s.1.call t a) rest
    (r.1, s.2 ++ r.2)

/-- Modelled from the spec: the full observable trace of a debounce session:
construct the controller with delay `d`, process the calls, then let the
clock run out to `tend`.  The result is the list of (fire-time, argument)
executions of the wrapped callback. -/
def debounceRun (α : Type) (d : Nat) (calls : List (Nat × α)) (tend : Nat) :
    List (Nat × α) :=
  let r := runCalls (debounce α d) calls
  r.2 ++ (r.1.elapse tend).2

/-- The last call of a nonempty sequence, given as head plus tail. -/
def lastEntry {α : Type} : (Nat × α) → List (Nat × α) → (Nat × α)
  | p, [] => p
  | _, q :: l => lastEntry q l

/-- All calls of a nonempty sequence except the last. -/
def frontEntries {α : Type} : (Nat × α) → List (Nat × α) → List (Nat × α)
  | _, [] => []
  | p, q :: l => p :: frontEntries q l

/-- The consecutive-pair condition along a nonempty sequence of calls. -/
def Gaps {α : Type} (R : Nat × α → Nat × α → Prop) :
    (Nat × α) → List (Nat × α) → Prop
  | _, [] => True
  | p, q :: l => R p q ∧ Gaps R q l

/-- The abstract two-state machine of spec section 4.1: Idle (no countdown)
or Armed (countdown running towards `deadline` with `args` stored). -/
inductive ControllerState (α : Type) where
  | idle : ControllerState α
  | armed (deadline : Nat) (args : α) : ControllerState α
deriving Repr, DecidableEq

/-- The abstract state of a controller: Idle when no timer is active,
Armed with the active timer's deadline and stored arguments otherwise. -/
def Debounced.state {α : Type} (g : Debounced α) : ControllerState α :=
  match g.sched.timers with
  | [] => ControllerState.idle
  | tr :: _ => ControllerState.armed tr.2.1 tr.2.2

/-- The states a controller can reach from construction under any
interleaving of calls and clock movement. -/
inductive Reach {α : Type} : Debounced α → Prop
  | init (wait : Nat) : Reach (debounce α wait)
  | call {g : Debounced α} (now : Nat) (args : α) :
      Reach g → Reach (g.call now args)
  | advance {g : Debounced α} (t : Nat) : Reach g → Reach (g.advance t).1
  | elapse {g : Debounced α} (t : Nat) : Reach g → Reach (g.elapse t).1

/-- The controller invariant: the timer list is empty, or it is a single
timer whose handle is the one held in the closure's `timeout` slot. -/
def DebInv {α : Type} (g : Debounced α) : Prop :=
  g.sched.timers = [] ∨
    ∃ e, g.sched.timers = [e] ∧ g.timeout = some e.1

lemma debInv_call {α : Type} {g : Debounced α} (hg : DebInv g)
    (now : Nat) (a : α) :
    (g.call now a).sched = ⟨[(g.sched.next, now + g.wait, a)], g.sched.next + 1⟩
      ∧ (g.call now a).timeout = some g.sched.next := by
  rcases hg with hnil | ⟨e, he, hto⟩
  · unfold Debounced.call Sched.schedule Sched.cancel
    cases hto : g.timeout <;> simp [hto, hnil]
  · unfold Debounced.call Sched.schedule Sched.cancel
    simp [hto, he]

lemma debInv_fire {α : Type} (g : Debounced α) (hg : DebInv g)
    (due : Nat × Nat × α → Bool) : DebInv (g.fire due).1 := by
  rcases hg with hnil | ⟨e, he, hto⟩
  · left; simp [Debounced.fire, hnil]
  · by_cases hd : due e
    · left; simp [Debounced.fire, he, hd]
    · right; exact ⟨e, by simp [Debounced.fire, he, hd], by
        simpa [Debounced.fire] using hto⟩

lemma reach_debInv {α : Type} {g : Debounced α} (h : Reach g) : DebInv g := by
  induction h with
  | init wait => left; rfl
  | call now args _ ih =>
    rename_i g0 _
    obtain ⟨h1, h2⟩ := debInv_call ih now args
    right
    exact ⟨(g0.sched.next, now + g0.wait, args), by rw [h1], h2⟩
  | advance t _ ih => exact debInv_fire _ ih _
  | elapse t _ ih => exact debInv_fire _ ih _

/-- The canonical state of a controller right after a call at time `t` with
argument `a`, holding handle `h`. -/
def armedAt {α : Type} (w h t : Nat) (a : α) : Debounced α :=
  ⟨w, ⟨[(h, t + w, a)], h + 1⟩, some h⟩

lemma call_idle {α : Type} (w n : Nat) (tm : Option Nat) (t : Nat) (a : α) :
    Debounced.call ⟨w, ⟨[], n⟩, tm⟩ t a = armedAt w n t a := by
  cases tm <;> rfl

lemma call_armed {α : Type} (w h t : Nat) (a : α) (t2 : Nat) (a2 : α) :
    (armedAt w h t a).call t2 a2 = armedAt w (h + 1) t2 a2 := by
  simp [Debounced.call, Sched.cancel, Sched.schedule, armedAt, List.filter]

lemma advance_armed_keep {α : Type} (w h t : Nat) (a : α) (t2 : Nat)
    (hlt : ¬ t + w < t2) :
    (armedAt w h t a).advance t2 = (armedAt w h t a, []) := by
  simp [Debounced.advance, Debounced.fire, armedAt, List.filter, hlt]

lemma advance_armed_fired {α : Type} (w h t : Nat) (a : α) (t2 : Nat)
    (hlt : t + w < t2) :
    (armedAt w h t a).advance t2 = (⟨w, ⟨[], h + 1⟩, some h⟩, [(t + w, a)]) := by
  simp [Debounced.advance, Debounced.fire, armedAt, List.filter, hlt]

lemma elapse_armed_fired {α : Type} (w h t : Nat) (a : α) (t2 : Nat)
    (hle : t + w ≤ t2) :
    (armedAt w h t a).elapse t2 = (⟨w, ⟨[], h + 1⟩, some h⟩, [(t + w, a)]) := by
  simp [Debounced.elapse, Debounced.fire, armedAt, List.filter, hle]

/-- Processing further calls that each arrive no later than the pending
deadline produces no execution: each call supersedes the pending one. -/
lemma runCalls_close {α : Type} (w : Nat) (rest : List (Nat × α)) :
    ∀ (h t : Nat) (a : α),
      Gaps (fun p q => p.1 ≤ q.1 ∧ q.1 ≤ p.1 + w) (t, a) rest →
      ∃ h2, runCalls (armedAt w h t a) rest =
        (armedAt w h2 (lastEntry (t, a) rest).1 (lastEntry (t, a) rest).2, []) := by
  induction rest with
  | nil => exact fun h t a _ => ⟨h, rfl⟩
  | cons q rest ih =>
    obtain ⟨tq, aq⟩ := q
    intro h t a hg
    obtain ⟨⟨hle, hub⟩, hrest⟩ := hg
    obtain ⟨h2, hh⟩ := ih (h + 1) tq aq hrest
    refine ⟨h2, ?_⟩
    simp only [runCalls, advance_armed_keep w h t a tq (by omega), call_armed,
      hh, lastEntry, List.nil_append]

/-- Processing further calls that each arrive strictly after the pending
deadline fires every pending execution in turn: each call's execution fires
before the next call arrives. -/
lemma runCalls_spread {α : Type} (w : Nat) (rest : List (Nat × α)) :
    ∀ (h t : Nat) (a : α),
      Gaps (fun p q => p.1 + w < q.1) (t, a) rest →
      ∃ h2, runCalls (armedAt w h t a) rest =
        (armedAt w h2 (lastEntry (t, a) rest).1 (lastEntry (t, a) rest).2,
         (frontEntries (t, a) rest).map (fun p => (p.1 + w, p.2))) := by
  induction rest with
  | nil => exact fun h t a _ => ⟨h, rfl⟩
  | cons q rest ih =>
    obtain ⟨tq, aq⟩ := q
    intro h t a hg
    obtain ⟨hlt, hrest⟩ := hg
    obtain ⟨h2, hh⟩ := ih (h + 1) tq aq hrest
    refine ⟨h2, ?_⟩
    have hcall : Debounced.call ⟨w, ⟨[], h + 1⟩, some h⟩ tq aq
        = armedAt w (h + 1) tq aq := call_idle w (h + 1) (some h) tq aq
    simp only [runCalls, advance_armed_fired w h t a tq hlt, hcall, hh,
      lastEntry, frontEntries, List.map_cons, List.singleton_append]

lemma gaps_mono {α : Type} {R S : Nat × α → Nat × α → Prop}
    (hRS : ∀ p q, R p q → S p q) :
    ∀ (l : List (Nat × α)) (p : Nat × α), Gaps R p l → Gaps S p l := by
  intro l
  induction l with
  | nil => intro p _; trivial
  | cons q l ih =>
    intro p hg
    exact ⟨hRS p q hg.1, ih q hg.2⟩

lemma runCalls_cons {α : Type} (g : Debounced α) (t : Nat) (a : α)
    (rest : List (Nat × α)) :
    runCalls g ((t, a) :: rest) =
      ((runCalls ((g.advance t).1.call t a) rest).1,
        (g.advance t).2 ++ (runCalls ((g.advance t).1.call t a) rest).2) := rfl

lemma debounceRun_eq {α : Type} (d : Nat) (calls : List (Nat × α))
    (tend : Nat) :
    debounceRun α d calls tend =
      (runCalls (debounce α d) calls).2 ++
        ((runCalls (debounce α d) calls).1.elapse tend).2 := rfl

lemma front_last {α : Type} :
    ∀ (l : List (Nat × α)) (p : Nat × α),
      frontEntries p l ++ [lastEntry p l] = p :: l := by
  intro l
  induction l with
  | nil => intro p; rfl
  | cons q l ih =>
    intro p
    simp only [frontEntries, lastEntry, List.cons_append, ih q]

lemma gaps_of_const {α : Type} (t : Nat) (rest : List (Nat × α)) :
    (∀ q ∈ rest, q.1 = t) →
    ∀ a : α, Gaps (fun p q => p.1 ≤ q.1 ∧ q.1 ≤ p.1 + 0) (t, a) rest := by
  induction rest with
  | nil => intro _ a; trivial
  | cons q l ih =>
    obtain ⟨tq, aq⟩ := q
    intro h a
    have hq : tq = t := h (tq, aq) (List.mem_cons_self (tq, aq) l)
    subst hq
    refine ⟨⟨Nat.le_refl tq, by omega⟩, ?_⟩
    exact ih (fun p hp => h p (List.mem_cons_of_mem (tq, aq) hp)) aq

lemma lastEntry_const {α : Type} (t : Nat) (rest : List (Nat × α)) :
    (∀ q ∈ rest, q.1 = t) →
    ∀ a : α, (lastEntry (t, a) rest).1 = t := by
  induction rest with
  | nil => intro _ a; rfl
  | cons q l ih =>
    obtain ⟨tq, aq⟩ := q
    intro h a
    have hq : tq = t := h (tq, aq) (List.mem_cons_self (tq, aq) l)
    subst hq
    have hl := ih (fun p hp => h p (List.mem_cons_of_mem (tq, aq) hp)) aq
    simpa [lastEntry] using hl

lemma advance_init {α : Type} (d t : Nat) :
    (debounce α d).advance t = (debounce α d, []) := rfl

lemma call_init {α : Type} (d t : Nat) (a : α) :
    (debounce α d).call t a = armedAt d 0 t a := rfl

/-- C1: for every nonempty sequence of calls to `g` in which every
consecutive pair is separated by less than the delay `d`, the wrapped
callback executes exactly once, after the quiet period (at the last call's
time plus `d`), with exactly the argument supplied to the last call —
untransformed, nothing dropped. -/
theorem debounce_rapid_calls_single_fire {α : Type} (d t0 : Nat) (a0 : α)
    (rest : List (Nat × α)) (tend : Nat)
    (hg : Gaps (fun p q => p.1 ≤ q.1 ∧ q.1 < p.1 + d) (t0, a0) rest)
    (hend : (lastEntry (t0, a0) rest).1 + d ≤ tend) :
    debounceRun α d ((t0, a0) :: rest) tend =
      [((lastEntry (t0, a0) rest).1 + d, (lastEntry (t0, a0) rest).2)] := by
  have hg2 : Gaps (fun p q => p.1 ≤ q.1 ∧ q.1 ≤ p.1 + d) (t0, a0) rest :=
    gaps_mono (fun p q hpq => ⟨hpq.1, Nat.le_of_lt hpq.2⟩) rest (t0, a0) hg
  obtain ⟨h2, hh⟩ := runCalls_close d rest 0 t0 a0 hg2
  simp only [debounceRun_eq, runCalls_cons, advance_init, call_init, hh,
    elapse_armed_fired d h2 _ _ tend hend, List.nil_append]

/-- C1 witness: the spec's own example — calls g(1), g(2), g(3) at times
0, 10, 20 with d = 100 produce exactly one execution, at time 120 with
argument 3. -/
theorem debounce_rapid_calls_single_fire_witness :
    debounceRun Nat 100 [(0, 1), (10, 2), (20, 3)] 120 = [(120, 3)] :=
  debounce_rapid_calls_single_fire 100 0 1 [(10, 2), (20, 3)] 120
    ⟨⟨by decide, by decide⟩, ⟨by decide, by decide⟩, trivial⟩ (by decide)

/-- C3: for every sequence of calls to `g` in which consecutive calls are
separated by strictly more than the delay `d`, the callback executes exactly
once per call, each execution at that call's time plus `d` with that call's
own argument. -/
theorem debounce_spaced_calls_fire_each {α : Type} (d t0 : Nat) (a0 : α)
    (rest : List (Nat × α)) (tend : Nat)
    (hg : Gaps (fun p q => p.1 + d < q.1) (t0, a0) rest)
    (hend : (lastEntry (t0, a0) rest).1 + d ≤ tend) :
    debounceRun α d ((t0, a0) :: rest) tend =
      ((t0, a0) :: rest).map (fun p => (p.1 + d, p.2)) := by
  obtain ⟨h2, hh⟩ := runCalls_spread d rest 0 t0 a0 hg
  have hfl := congrArg (List.map (fun p : Nat × α => (p.1 + d, p.2)))
    (front_last rest (t0, a0))
  rw [List.map_append] at hfl
  simp only [debounceRun_eq, runCalls_cons, advance_init, call_init, hh,
    elapse_armed_fired d h2 _ _ tend hend, List.nil_append]
  simpa using hfl

/-- C3 witness: the spec's own example — g('a') at 0 and g('b') at 150 with
d = 100 produce two separate executions: ('a') at 100 and ('b') at 250. -/
theorem debounce_spaced_calls_fire_each_witness :
    debounceRun String 100 [(0, "a"), (150, "b")] 250 =
      [(100, "a"), (250, "b")] :=
  debounce_spaced_calls_fire_each 100 0 "a" [(150, "b")] 250
    ⟨by decide, trivial⟩ (by decide)

/-- C5: with delay 0, nothing fires synchronously during a burst of calls
made in the same synchronous frame (processing the calls alone emits no
execution), and once the frame yields the burst collapses into exactly one
execution, carrying the last call's argument. -/
theorem debounce_zero_delay_defers {α : Type} (t : Nat) (a0 : α)
    (rest : List (Nat × α)) (hsame : ∀ q ∈ rest, q.1 = t) :
    (runCalls (debounce α 0) ((t, a0) :: rest)).2 = [] ∧
    debounceRun α 0 ((t, a0) :: rest) t =
      [(t, (lastEntry (t, a0) rest).2)] := by
  obtain ⟨h2, hh⟩ := runCalls_close 0 rest 0 t a0 (gaps_of_const t rest hsame a0)
  have hlast : (lastEntry (t, a0) rest).1 = t := lastEntry_const t rest hsame a0
  constructor
  · simp only [runCalls_cons, advance_init, call_init, hh, List.nil_append]
  · have hfire := elapse_armed_fired 0 h2 (lastEntry (t, a0) rest).1
      (lastEntry (t, a0) rest).2 t (by omega)
    simp only [debounceRun_eq, runCalls_cons, advance_init, call_init, hh,
      hfire, List.nil_append]
    simp [hlast]

/-- C5 witness: two calls of g in the same frame at time 5 with d = 0 emit
nothing synchronously and exactly one deferred execution with the second
call's argument. -/
theorem debounce_zero_delay_defers_witness :
    (runCalls (debounce Nat 0) [(5, 1), (5, 2)]).2 = [] ∧
    debounceRun Nat 0 [(5, 1), (5, 2)] 5 = [(5, 2)] :=
  debounce_zero_delay_defers 5 1 [(5, 2)] (by decide)

/-- C7: if the debounced function is never called, the wrapped callback is
never executed: a freshly constructed controller emits an empty trace no
matter how much time elapses, and sits in the Idle state. -/
theorem debounce_never_invoked {α : Type} (d tend : Nat) :
    debounceRun α d [] tend = [] ∧
    (debounce α d).state = ControllerState.idle :=
  ⟨rfl, rfl⟩

lemma armed_timers {α : Type} {g : Debounced α} (hinv : DebInv g)
    {dl : Nat} {a : α} (hs : g.state = ControllerState.armed dl a) :
    ∃ hh, g.sched.timers = [(hh, dl, a)] := by
  rcases hinv with hnil | ⟨e, he, _⟩
  · simp [Debounced.state, hnil] at hs
  · obtain ⟨eh, edl, ea⟩ := e
    simp only [Debounced.state, he] at hs
    obtain ⟨h1, h2⟩ := ControllerState.armed.inj hs
    subst h1
    subst h2
    exact ⟨eh, he⟩

lemma elapse_armed {α : Type} {g : Debounced α} (hinv : DebInv g)
    {dl : Nat} {a : α} (hs : g.state = ControllerState.armed dl a)
    {t : Nat} (hle : dl ≤ t) :
    (g.elapse t).2 = [(dl, a)] ∧
      (g.elapse t).1.state = ControllerState.idle := by
  obtain ⟨hh, htim⟩ := armed_timers hinv hs
  constructor
  · simp [Debounced.elapse, Debounced.fire, htim, hle]
  · simp [Debounced.elapse, Debounced.fire, Debounced.state, htim, hle]

lemma elapse_wait {α : Type} (g : Debounced α) (t : Nat) :
    (g.elapse t).1.wait = g.wait := rfl

/-- C2: in every reachable controller state at most one scheduled execution
is outstanding (the timer list never holds two entries), and a new call
always cancels and replaces the outstanding one: afterwards the scheduled
executions are exactly the single new (deadline, argument) pair, the earlier
stored arguments discarded. -/
theorem debounce_single_pending {α : Type} (g : Debounced α) (hg : Reach g) :
    g.sched.timers.length ≤ 1 ∧
    ∀ (t : Nat) (a : α),
      (g.call t a).sched.timers.map (fun tr => (tr.2.1, tr.2.2)) =
        [(t + g.wait, a)] := by
  have hinv := reach_debInv hg
  constructor
  · rcases hinv with hnil | ⟨e, he, _⟩
    · simp [hnil]
    · simp [he]
  · intro t a
    obtain ⟨h1, _⟩ := debInv_call hinv t a
    rw [h1]
    rfl

/-- C2 witness: after two overlapping calls only the second one's pending
execution remains. -/
theorem debounce_single_pending_witness :
    ((debounce Nat 50).call 3 42).sched.timers.length ≤ 1 ∧
    (((debounce Nat 50).call 3 42).call 7 99).sched.timers.map
        (fun tr => (tr.2.1, tr.2.2)) = [(7 + 50, 99)] := by
  have h := debounce_single_pending ((debounce Nat 50).call 3 42)
    (Reach.call 3 42 (Reach.init 50))
  exact ⟨h.1, h.2 7 99⟩

/-- C4: the controller follows the two-state machine of the spec: a fresh
controller is Idle; a call from any reachable state yields Armed with the
countdown ending at call-time plus delay and the call's argument stored;
expiry while Armed emits exactly one execution with the stored argument and
returns to Idle; and after time passes, a subsequent call arms a fresh,
independent countdown — there is no terminal state. -/
theorem debounce_state_machine {α : Type} (g : Debounced α) (hg : Reach g) :
    (∀ w : Nat, (debounce α w).state = ControllerState.idle) ∧
    (∀ (t : Nat) (a : α),
        (g.call t a).state = ControllerState.armed (t + g.wait) a) ∧
    (∀ (dl t : Nat) (a : α),
        g.state = ControllerState.armed dl a → dl ≤ t →
        (g.elapse t).2 = [(dl, a)] ∧
        (g.elapse t).1.state = ControllerState.idle) ∧
    (∀ (t t2 : Nat) (a2 : α),
        ((g.elapse t).1.call t2 a2).state =
          ControllerState.armed (t2 + g.wait) a2) := by
  have hinv := reach_debInv hg
  refine ⟨fun w => rfl, ?_, ?_, ?_⟩
  · intro t a
    obtain ⟨h1, _⟩ := debInv_call hinv t a
    simp [Debounced.state, h1]
  · intro dl t a hs hle
    exact elapse_armed hinv hs hle
  · intro t t2 a2
    have hinv2 : DebInv (g.elapse t).1 := debInv_fire _ hinv _
    obtain ⟨h1, _⟩ := debInv_call hinv2 t2 a2
    simp [Debounced.state, h1, elapse_wait]

/-- C4 witness: arm at time 0 with argument 7 and delay 5, expire at 6,
return to Idle, then re-arm at time 9 with argument 8. -/
theorem debounce_state_machine_witness :
    ((debounce Nat 5).call 0 7).state = ControllerState.armed 5 7 ∧
    (((debounce Nat 5).call 0 7).elapse 6).2 = [(5, 7)] ∧
    ((((debounce Nat 5).call 0 7).elapse 6).1).state =
      ControllerState.idle ∧
    (((((debounce Nat 5).call 0 7).elapse 6).1).call 9 8).state =
      ControllerState.armed 14 8 := by
  have h0 := debounce_state_machine (debounce Nat 5) (Reach.init 5)
  have h := debounce_state_machine ((debounce Nat 5).call 0 7)
    (Reach.call 0 7 (Reach.init 5))
  have h3 := h.2.2.1 5 6 7 (h0.2.1 0 7) (by decide)
  exact ⟨h0.2.1 0 7, h3.1, h3.2, h.2.2.2 6 9 8⟩

/-- Modelled from the spec: the deferred execution applied to a possibly
throwing callback `f`; each fired timer yields the outcome of `f` on the
stored argument at the fire time, and the controller's own state transition
is the same as with any callback. -/
def Debounced.elapseWith {α ε : Type} (g : Debounced α) (t : Nat)
    (f : α → Except ε Unit) : Debounced α × List (Nat × Except ε Unit) :=
  ((g.elapse t).1, (g.elapse t).2.map (fun p => (p.1, f p.2)))

/-- Modelled from the spec: the caller-facing invocation of the produced
function `g`: scheduling cannot fail, so invocation always succeeds,
returning the new controller state and the unit value handed back to the
caller. -/
def Debounced.invoke {α ε : Type} (g : Debounced α) (now : Nat) (args : α) :
    Except ε (Debounced α × Unit) :=
  Except.ok (g.call now args, ())

/-- C6: invoking the debounced function never throws (it always returns ok);
the controller's state evolution is identical for every callback — the
outcome of `f` is neither consumed nor reacted to (no retry, no swallow) —
and when `f` throws on the stored argument, the error surfaces in the
deferred-execution channel exactly at the fire time, after which the
controller is Idle again. -/
theorem debounce_error_propagation {α ε : Type} (g : Debounced α)
    (hg : Reach g) :
    (∀ (now : Nat) (args : α),
        (g.invoke now args : Except ε (Debounced α × Unit)) =
          Except.ok (g.call now args, ())) ∧
    (∀ (f1 f2 : α → Except ε Unit) (t : Nat),
        (g.elapseWith t f1).1 = (g.elapseWith t f2).1) ∧
    (∀ (f : α → Except ε Unit) (dl t : Nat) (a : α) (e : ε),
        g.state = ControllerState.armed dl a → dl ≤ t →
        f a = Except.error e →
        (g.elapseWith t f).2 = [(dl, Except.error e)] ∧
        (g.elapseWith t f).1.state = ControllerState.idle) := by
  have hinv := reach_debInv hg
  refine ⟨fun now args => rfl, fun f1 f2 t => rfl, ?_⟩
  intro f dl t a e hs hle hf
  obtain ⟨hout, hidle⟩ := elapse_armed hinv hs hle
  constructor
  · simp [Debounced.elapseWith, hout, hf]
  · exact hidle

/-- C6 witness: a callback that throws does so at the fire time (5), not at
the call time (0), and the controller returns to Idle. -/
theorem debounce_error_propagation_witness :
    (((debounce Nat 5).call 0 7).invoke 1 8 :
        Except String (Debounced Nat × Unit)) =
      Except.ok ((((debounce Nat 5).call 0 7)).call 1 8, ()) ∧
    (((debounce Nat 5).call 0 7).elapseWith 6
        (fun _ => (Except.error "boom" : Except String Unit))).2 =
      [(5, Except.error "boom")] ∧
    (((debounce Nat 5).call 0 7).elapseWith 6
        (fun _ => (Except.error "boom" : Except String Unit))).1.state =
      ControllerState.idle := by
  have h := debounce_error_propagation (ε := String)
    ((debounce Nat 5).call 0 7) (Reach.call 0 7 (Reach.init 5))
  have h3 := h.2.2 (fun _ => Except.error "boom") 5 6 7 "boom" rfl
    (by decide) rfl
  exact ⟨h.1 1 8, h3.1, h3.2⟩

/-- C8: the debounced callable accepts the same argument type as the wrapped
callback, and its return value carries no information to the caller: every
invocation succeeds with the unit value, and the payloads returned by any
two invocations are identical (fire-and-forget). -/
theorem debounce_fire_and_forget {α ε : Type} :
    (∀ (g : Debounced α) (now : Nat) (args : α),
        (g.invoke now args : Except ε (Debounced α × Unit)) =
          Except.ok (g.call now args, ())) ∧
    (∀ (g1 g2 : Debounced α) (t1 t2 : Nat) (a1 a2 : α)
        (r1 r2 : Debounced α × Unit),
        (g1.invoke t1 a1 : Except ε (Debounced α × Unit)) = Except.ok r1 →
        (g2.invoke t2 a2 : Except ε (Debounced α × Unit)) = Except.ok r2 →
        r1.2 = r2.2) := by
  refine ⟨fun g now args => rfl, ?_⟩
  intro g1 g2 t1 t2 a1 a2 r1 r2 _ _
  exact Subsingleton.elim r1.2 r2.2

/-- C8 witness: two distinct invocations return payloads that are equal,
hence uninformative. -/
theorem debounce_fire_and_forget_witness :
    ((debounce Nat 3).invoke 0 1 : Except String (Debounced Nat × Unit)) =
      Except.ok ((debounce Nat 3).call 0 1, ()) ∧
    (((debounce Nat 3).call 0 1, ()) : Debounced Nat × Unit).2 =
      (((debounce Nat 3).call 5 9, ()) : Debounced Nat × Unit).2 := by
  have h := debounce_fire_and_forget (α := Nat) (ε := String)
  exact ⟨h.1 (debounce Nat 3) 0 1,
    h.2 (debounce Nat 3) (debounce Nat 3) 0 5 1 9
      ((debounce Nat 3).call 0 1, ()) ((debounce Nat 3).call 5 9, ())
      rfl rfl⟩

/-- Splitting a character list at every space, the semantics of the
JavaScript split(' ') call, kept on the character level. -/
def splitOnSpace : List Char → List (List Char)
  | [] => [[]]
  | c :: cs =>
    match splitOnSpace cs with
    | [] => [[]]
    | w :: ws => if c = ' ' then [] :: w :: ws else (c :: w) :: ws

/-- Modelled from the spec: the per-word helper of formatName — capitalize
the first letter of a word. -/
def capitalizeWord (w : List Char) : List Char :=
  match w with
  | [] => []
  | c :: cs => c.toUpper :: cs

/-- Joining words with single spaces, the semantics of join(' '). -/
def joinWords : List (List Char) → List Char
  | [] => []
  | [w] => w
  | w :: ws => w ++ ' ' :: joinWords ws

/-- Modelled from the spec: the formatName utility from
packages/common/src/utils (whose implementation file is absent from the
snapshot): capitalize each space-separated word of the name, collapsing
runs of spaces, per the behaviour documented in TESTING_GUIDE.md. -/
def formatName (name : String) : String :=
  String.mk (joinWords
    (((splitOnSpace name.data).filter (fun w => !w.isEmpty)).map
      capitalizeWord))

/-- The first character of a string as a string, the semantics of the
JavaScript charAt(0) call: the empty string when there is none. -/
def charAt0 (s : String) : String :=
  match s.data with
  | [] => ""
  | c :: _ => String.mk [c]

/-- Props of the UserCard component (UserCard.tsx lines 8-14); the optional
props are Option-valued, an omitted prop being none. -/
structure UserCardProps where
  name : String
  email : String
  role : String
  avatar : Option String
  className : Option String

/-- The avatar section rendered by UserCard: either an img element with its
src and alt attributes, or the placeholder div with its span text. -/
inductive AvatarView where
  | image (src : String) (alt : String) : AvatarView
  | placeholder (text : String) : AvatarView
deriving Repr, DecidableEq

/-- The user-visible content rendered by UserCard. -/
structure UserCardView where
  avatar : AvatarView
  userName : String
  userEmail : String
  userRole : String
  className : Option String

/-- The UserCard component (UserCard.tsx lines 94-130): it formats the name
prop with the shared formatName utility, then renders the avatar image with
alt text "<formatted name>'s avatar" or the placeholder holding
formattedName.charAt(0).  The JSX conditional `avatar ? ... : ...` tests
JavaScript truthiness, so an absent avatar prop and an empty-string avatar
both select the placeholder branch. -/
def UserCard (p : UserCardProps) : UserCardView :=
  let formattedName := formatName p.name
  { avatar :=
      match p.avatar with
      | some s =>
        if s = "" then AvatarView.placeholder (charAt0 formattedName)
        else AvatarView.image s (formattedName ++ "\x27s avatar")
      | none => AvatarView.placeholder (charAt0 formattedName),
    userName := formattedName,
    userEmail := p.email,
    userRole := p.role,
    className := p.className }

/-- C9 counterexample: supplying the avatar prop as the empty string renders
the placeholder, not an image with that src — the component's truthiness
test sends every falsy avatar value to the placeholder branch, so the claim
as stated fails for a supplied empty avatar. -/
theorem userCard_empty_avatar_cex :
    (UserCard ⟨"ann lee", "ann@example.com", "dev", some "", none⟩).avatar =
      AvatarView.placeholder "A" ∧
    (UserCard ⟨"ann lee", "ann@example.com", "dev", some "", none⟩).avatar ≠
      AvatarView.image "" (formatName "ann lee" ++ "\x27s avatar") := by
  decide

/-- C9 (amended): UserCard always displays the name passed through
formatName, never the raw prop; when a non-empty avatar string is supplied
it renders an image with exactly that src and alt text
"<formatted name>'s avatar"; when the avatar prop is absent — or supplied
as the empty string, which the JSX truthiness test treats the same — it
renders the placeholder containing exactly the first character of the
formatted name. -/
theorem userCard_rendering (p : UserCardProps) :
    (UserCard p).userName = formatName p.name ∧
    (∀ s, p.avatar = some s → s ≠ "" →
        (UserCard p).avatar =
          AvatarView.image s (formatName p.name ++ "\x27s avatar")) ∧
    ((p.avatar = none ∨ p.avatar = some "") →
        (UserCard p).avatar =
          AvatarView.placeholder (charAt0 (formatName p.name))) := by
  refine ⟨rfl, ?_, ?_⟩
  · intro s hs hne
    simp [UserCard, hs, hne]
  · intro hcase
    rcases hcase with h | h <;> simp [UserCard, h]

/-- C9 witness: with a non-empty avatar the image is rendered with that
exact src; with no avatar the placeholder holds the formatted name's first
character. -/
theorem userCard_rendering_witness :
    (UserCard ⟨"jane doe", "j@d.io", "dev", some "pic.png", none⟩).userName =
      formatName "jane doe" ∧
    (UserCard ⟨"jane doe", "j@d.io", "dev", some "pic.png", none⟩).avatar =
      AvatarView.image "pic.png" (formatName "jane doe" ++ "\x27s avatar") ∧
    (UserCard ⟨"jane doe", "j@d.io", "dev", none, none⟩).avatar =
      AvatarView.placeholder (charAt0 (formatName "jane doe")) := by
  have h1 := userCard_rendering ⟨"jane doe", "j@d.io", "dev",
    some "pic.png", none⟩
  have h2 := userCard_rendering ⟨"jane doe", "j@d.io", "dev", none, none⟩
  exact ⟨h1.1, h1.2.1 "pic.png" rfl (by decide), h2.2.2 (Or.inl rfl)⟩

/-- The variant values of the Button component (UserCard.tsx line 140). -/
inductive ButtonVariant where
  | primary : ButtonVariant
  | secondary : ButtonVariant
  | danger : ButtonVariant
deriving Repr, DecidableEq

/-- The size values of the Button component (UserCard.tsx line 141). -/
inductive ButtonSize where
  | small : ButtonSize
  | medium : ButtonSize
  | large : ButtonSize
deriving Repr, DecidableEq

/-- Props of the Button component (UserCard.tsx lines 137-144); the
optional props are Option-valued, an omitted prop being none (undefined). -/
structure ButtonProps (Child Handler : Type) where
  children : Child
  onClick : Option Handler
  variant : Option ButtonVariant
  size : Option ButtonSize
  disabled : Option Bool
  className : Option String

/-- The attributes of the underlying styled button element as rendered. -/
structure ButtonView (Child Handler : Type) where
  variant : ButtonVariant
  size : ButtonSize
  disabled : Bool
  onClick : Option Handler
  className : Option String
  children : Child

/-- The Button component (UserCard.tsx lines 230-249): it destructures its
props with defaults variant='primary', size='medium', disabled=false (a
destructuring default applies exactly when the prop is undefined) and
forwards everything to the styled button element, rendering the children
inside it. -/
def Button {Child Handler : Type} (p : ButtonProps Child Handler) :
    ButtonView Child Handler :=
  { variant := p.variant.getD ButtonVariant.primary,
    size := p.size.getD ButtonSize.medium,
    disabled := p.disabled.getD false,
    onClick := p.onClick,
    className := p.className,
    children := p.children }

/-- C10: when the optional variant, size and disabled props are omitted, the
rendered button uses variant primary, size medium and disabled false; the
supplied onClick handler is passed through to the underlying button
unchanged and the children are rendered inside the button as given. -/
theorem button_defaults {Child Handler : Type} (ch : Child) (onC : Handler)
    (cn : Option String) :
    Button ⟨ch, some onC, none, none, none, cn⟩ =
      ⟨ButtonVariant.primary, ButtonSize.medium, false, some onC, cn, ch⟩ :=
  rfl
